/-
Verification of the wgsl_preprocessor crate (ShaderBuilder in src/lib.rs and the
WGSLType derive in wgsl_type_derive/src/lib.rs) against its natural-language
specification.  The Rust code is shallowly embedded over `List Char`: strings
become character lists, `str::replace` / `str::lines` / `str::trim` /
`split` / `split_whitespace` are re-implemented with the same semantics,
the filesystem becomes a partial map from paths to file contents, and the
recursive include loader takes an explicit fuel parameter (the fuel-out case is
a distinct error that never fires in the theorems below).  The Rust `HashMap`
of macro definitions is modelled as an insertion-ordered association list with
overwrite-on-insert; its iteration order in Rust is unspecified, so every
theorem below involves at most one definition, making the order immaterial.
-/
import Mathlib

set_option linter.unusedVariables false

/-- Character lists standing for Rust `String` / `&str` values. -/
abbrev LC := List Char

/-- Convenience conversion from a Lean string literal to its character list. -/
def chars (s : String) : LC := s.toList

/-- Models `char::is_whitespace` for the characters that can actually occur in
the shader sources treated here (ASCII whitespace). -/
def isWS (c : Char) : Bool := c == ' ' || c == '\t' || c == '\n' || c == '\r'

/-- Models Rust `str::trim`: drop whitespace from both ends. -/
def trim (s : LC) : LC := ((s.dropWhile isWS).reverse.dropWhile isWS).reverse

/-- Splits a list at every separator character satisfying `p`, keeping empty
fields; models Rust `str::split` (with `splitP (fun c => c == sep)`).  The
result is always nonempty. -/
def splitP (p : Char → Bool) : LC → List LC
  | [] => [[]]
  | a :: rest =>
    let r := splitP p rest
    if p a then [] :: r else (a :: r.headD []) :: r.tail

/-- Models Rust `str::split_whitespace`: split on whitespace and drop the empty
fields produced by leading, trailing or repeated whitespace. -/
def splitWhitespace (s : LC) : List LC := (splitP isWS s).filter (fun t => !t.isEmpty)

/-- Models Rust `str::lines`: split on newline, with the field after a trailing
newline removed. -/
def rustLines (s : LC) : List LC :=
  let parts := splitP (fun c => c == '\n') s
  if parts.getLast? = some [] then parts.dropLast else parts

/-- Whether the pattern `p` occurs as a contiguous substring (true at some
suffix position). -/
def occurs (p : LC) : LC → Bool
  | [] => p.isPrefixOf []
  | c :: t => p.isPrefixOf (c :: t) || occurs p t

/-- Worker for `rustReplace`: scans the text left to right; the `Nat` argument
counts characters of a just-matched occurrence that remain to be skipped, so
matches are non-overlapping and leftmost, as with Rust `str::replace`. -/
def replaceCore (p r : LC) : Nat → LC → LC
  | _, [] => []
  | n + 1, _ :: rest => replaceCore p r n rest
  | 0, c :: rest =>
    if p.isPrefixOf (c :: rest) then r ++ replaceCore p r (p.length - 1) rest
    else c :: replaceCore p r 0 rest

/-- Models Rust `str::replace self from to` (here `rustReplace self from to`):
replace every leftmost non-overlapping occurrence of `p` by `r`.  The empty
pattern matches at every character boundary, as in Rust. -/
def rustReplace (s p r : LC) : LC :=
  if p = [] then r ++ (s.map (fun c => c :: r)).flatten
  else replaceCore p r 0 s

/-- Decimal rendering of a natural number, as Rust `Display` for `u32`. -/
def natChars (n : Nat) : LC := (Nat.repr n).toList

/-! Directive keywords from src/lib.rs (`const_format::concatcp!` of the
prefix `//!` with each keyword). -/

def INSTRUCTION_PREFIX : LC := chars "//!"
def INCLUDE_INSTRUCTION : LC := chars "//!include"
def DEFINE_INSTRUCTION : LC := chars "//!define"
def IFDEF_INSTRUCTION : LC := chars "//!ifdef"
def IFNDEF_INSTRUCTION : LC := chars "//!ifndef"
def ELSE_INSTRUCTION : LC := chars "//!else"
def ENDIF_INSTRUCTION : LC := chars "//!endif"

/-- Attempted match of `MACRO_REGEX` (`//!define (\S+) (.+)`) at a fixed
position: `rest` is the text following the literal `"//!define "`.  The first
capture is the maximal nonempty run of non-whitespace characters, which must be
followed by a literal space and at least one further character; the second
capture greedily takes the remainder of the line. -/
def regexCaptureAt (rest : LC) : Option (LC × LC) :=
  let name := rest.takeWhile (fun c => !(isWS c))
  match rest.drop name.length with
  | ' ' :: v => if name = [] ∨ v = [] then none else some (name, v)
  | _ => none

/-- Models `MACRO_REGEX.captures(line)`: the regex engine tries each start
position left to right, matching the literal `"//!define "` and then the two
capture groups. -/
def regexCaptures : LC → Option (LC × LC)
  | [] => none
  | c :: rest =>
    if (DEFINE_INSTRUCTION ++ [' ']).isPrefixOf (c :: rest) then
      match regexCaptureAt ((c :: rest).drop 10) with
      | some nv => some nv
      | none => regexCaptures rest
    else regexCaptures rest

/-- Line loop of `ShaderBuilder::parse_defines`.  Each line is trimmed; `else`
flips the flag, `endif` resets it to true, `ifdef`/`ifndef` set it from
membership of the directive's first argument in `defines` — `none` models the
Rust panic of `.nth(1).unwrap()` when the directive has no argument — and
other lines are kept exactly when the flag is true. -/
def parseDefinesLines (defines : List LC) : Bool → List LC → Option LC
  | _, [] => some []
  | add, l :: rest =>
    let t := trim l
    if ELSE_INSTRUCTION.isPrefixOf t then parseDefinesLines defines (!add) rest
    else if ENDIF_INSTRUCTION.isPrefixOf t then parseDefinesLines defines true rest
    else if IFDEF_INSTRUCTION.isPrefixOf t then
      match (splitP (fun c => c == ' ') t)[1]? with
      | none => none
      | some d => parseDefinesLines defines (defines.contains d) rest
    else if IFNDEF_INSTRUCTION.isPrefixOf t then
      match (splitP (fun c => c == ' ') t)[1]? with
      | none => none
      | some d => parseDefinesLines defines (!(defines.contains d)) rest
    else if add then
      match parseDefinesLines defines add rest with
      | none => none
      | some out => some ((t ++ if t = ['\n'] ∨ t = [] then [] else ['\n']) ++ out)
    else parseDefinesLines defines add rest

/-- Models `ShaderBuilder::parse_defines` (src/lib.rs lines 486-521), the
conditional-compilation filter.  `none` models a panic. -/
def parse_defines (source : LC) (defines : List LC) : Option LC :=
  parseDefinesLines defines true (rustLines source)

/-- The macro-definition table: `HashMap<String, String>` modelled as an
insertion-ordered association list. -/
abbrev Defs := List (LC × LC)

/-- `HashMap::insert`: overwrite the value when the key is present, append
otherwise. -/
def hmInsert (m : Defs) (k v : LC) : Defs :=
  if m.any (fun kv => kv.1 == k) then m.map (fun kv => if kv.1 == k then (k, v) else kv)
  else m ++ [(k, v)]

/-- `HashMap::extend`: insert every pair of `n` into `m`. -/
def hmExtend (m : Defs) (n : Defs) : Defs := n.foldl (fun acc kv => hmInsert acc kv.1 kv.2) m

/-- The final substitution pass of `load_shader_module`
(`definitions.iter().for_each(.. replace ..)`), folding over the table in the
model's list order. -/
def applyDefs (defs : Defs) (t : LC) : LC := defs.foldl (fun acc kv => rustReplace acc kv.1 kv.2) t

/-- Failures of `load_shader_module`: a missing file (`ex::fs::read_to_string`
error), a panic inside `parse_defines`, or fuel exhaustion of the model's
bounded include recursion. -/
inductive LoadErr
  | notFound
  | panicked
  | fuelOut
deriving DecidableEq

/-- Include-token loop of `load_shader_module`: each whitespace-separated path
token after `//!include` is loaded recursively, its text appended and its
definitions merged into the table. -/
def processTokens (loadMod : LC → Except LoadErr (LC × Defs)) :
    List LC → LC × Defs → Except LoadErr (LC × Defs)
  | [], st => .ok st
  | tok :: rest, (t, d) =>
    match loadMod tok with
    | .error e => .error e
    | .ok (ti, di) => processTokens loadMod rest (t ++ ti, hmExtend d di)

/-- Line loop of `load_shader_module`: include lines recurse on their path
tokens, lines captured by `MACRO_REGEX` feed the definition table, and every
other line is appended verbatim with a newline. -/
def processLines (loadMod : LC → Except LoadErr (LC × Defs)) :
    List LC → LC × Defs → Except LoadErr (LC × Defs)
  | [], st => .ok st
  | l :: rest, (t, d) =>
    if INCLUDE_INSTRUCTION.isPrefixOf l then
      match processTokens loadMod ((splitWhitespace l).drop 1) (t, d) with
      | .error e => .error e
      | .ok st => processLines loadMod rest st
    else
      match regexCaptures l with
      | some nv => processLines loadMod rest (t, hmInsert d nv.1 nv.2)
      | none => processLines loadMod rest (t ++ l ++ ['\n'], d)

/-- Models `ShaderBuilder::load_shader_module` (src/lib.rs lines 523-553).
The file at `module_path` is read from `fs`; when a defines list is present the
source is first filtered by `parse_defines`; the line loop then inlines
includes and collects macro definitions — note that the recursive call uses the
include token verbatim as the next module path (`path::Path::new(include)`)
while `base_path` is merely passed along unused, exactly as in the source —
and finally every collected definition is substituted into the accumulated
text. -/
def load_shader_module :
    Nat → (LC → Option LC) → LC → LC → Option (List LC) → Except LoadErr (LC × Defs)
  | 0, _, _, _, _ => .error .fuelOut
  | fuel + 1, fs, base_path, module_path, defines =>
    match fs module_path with
    | none => .error .notFound
    | some content =>
      match (match defines with
             | some ds => parse_defines content ds
             | none => some content) with
      | none => .error .panicked
      | some module_source =>
        match processLines (fun p => load_shader_module fuel fs base_path p defines)
            (rustLines module_source) ([], []) with
        | .error e => .error e
        | .ok (text, defs) => .ok (applyDefs defs text, defs)

/-- The `WGSLType` trait of src/lib.rs: a WGSL type name and a literal
rendering of values. -/
structure WGSLTypeImpl (α : Type) where
  type_name : LC
  string_definition : α → LC

/-- The `impl WGSLType for u32`: `any::type_name::<u32>()` is `"u32"` and
values render as `format!("{self}u")`.  `Nat` models `u32` values (the claims
only use small constants, where the semantics agree). -/
def u32Impl : WGSLTypeImpl Nat := ⟨chars "u32", fun n => natChars n ++ ['u']⟩

/-- Models `ShaderBuilder::put_constant` (src/lib.rs lines 321-324):
`self.source_string.replace(name, value.string_definition())`. -/
def put_constant {α : Type} (T : WGSLTypeImpl α) (source name : LC) (value : α) : LC :=
  rustReplace source name (T.string_definition value)

/-- Models `ShaderBuilder::put_array_definition` (src/lib.rs lines 342-366):
build `var<private> name: array<T, N> = array<T, N>(` then push each element's
rendering followed by a comma, close with `);`, and replace every occurrence of
`"//!define name"` in the source by that string. -/
def put_array_definition {α : Type} (T : WGSLTypeImpl α) (source name : LC) (array : List α) : LC :=
  let tn := T.type_name
  let n := natChars array.length
  let header := chars "var<private> " ++ name ++ chars ": array<" ++ tn ++ chars ", " ++ n ++
    chars "> = array<" ++ tn ++ chars ", " ++ n ++ chars ">("
  let body := array.foldl (fun acc v => acc ++ T.string_definition v ++ [',']) []
  rustReplace source (DEFINE_INSTRUCTION ++ [' '] ++ name) (header ++ body ++ chars ");")

/-- Models the `description` computed by the derive macro in
wgsl_type_derive/src/lib.rs for a struct with named fields, given as
(field name, field type tokens) pairs: `named.iter().map(|f| &f.ty).last()` is
interpolated into `quote! {#idents.type_name()}` and the token stream is then
rendered to a string (tokens separated by spaces), so only the last field's
type appears, followed by the literal tokens `. type_name ()`. -/
def derive_description (fields : List (LC × LC)) : LC :=
  match fields.getLast? with
  | some f => f.2 ++ chars " . type_name ()"
  | none => chars ". type_name ()"

/-- Models the `declaration` method generated by the derive macro:
`format!("struct \x7b\x7d \x7b\x7b\x7b\x7d\x7d\x7d;", Self::type_name(), #description)` where
`#description` interpolates the description string as a literal. -/
def derive_declaration (ident : LC) (fields : List (LC × LC)) : LC :=
  chars "struct " ++ ident ++ chars " \x7b" ++ derive_description fields ++ chars "\x7d;"

/-- Joins a list of lines into file text, each line terminated by a newline. -/
def joinLines (ls : List LC) : LC := (ls.map (fun l => l ++ ['\n'])).flatten

/-- An ordinary source line for `parse_defines`: free of surrounding
whitespace and newlines, nonempty, and not starting with any of the four
conditional directives. -/
def plainLine (P : LC) : Prop :=
  trim P = P ∧ P ≠ [] ∧ '\n' ∉ P ∧
  ELSE_INSTRUCTION.isPrefixOf P = false ∧ ENDIF_INSTRUCTION.isPrefixOf P = false ∧
  IFDEF_INSTRUCTION.isPrefixOf P = false ∧ IFNDEF_INSTRUCTION.isPrefixOf P = false

instance (P : LC) : Decidable (plainLine P) := by unfold plainLine; infer_instance

/-- Filesystem for the C4 scenario: one module whose single line is the macro
placeholder `//!define ARR`. -/
def fsC4 : LC → Option LC := fun p =>
  if p = chars "m.wgsl" then some (chars "//!define ARR\n") else none

/-- Filesystem for the C10 witness: one module consisting solely of an
`ifdef`/`else`/`endif` group. -/
def fsC10 : LC → Option LC := fun p =>
  if p = chars "m.wgsl" then some (chars "//!ifdef X\nA\n//!else\nB\n//!endif\n") else none

/-- Filesystem for the C1 counterexample: a module that defines `X` by a
`define` directive and then tests it with `ifdef`. -/
def fsC1x : LC → Option LC := fun p =>
  if p = chars "m.wgsl" then
    some (chars "//!define X 1\n//!ifdef X\nA\n//!else\nB\n//!endif\n")
  else none

/-- Filesystem for the C5 counterexample: a module whose `ifdef` has no
matching `endif`. -/
def fsC5x : LC → Option LC := fun p =>
  if p = chars "m.wgsl" then some (chars "//!ifdef X\nA\n") else none

/-- Filesystem for the C7 counterexample: a module whose `ifdef` carries two
arguments. -/
def fsC7x : LC → Option LC := fun p =>
  if p = chars "m.wgsl" then some (chars "//!ifdef A B\nP\n//!endif\n") else none

/-- Filesystem for the C7 counterexample, `ifndef` variant: a module whose
`ifndef` carries two arguments. -/
def fsC7nx : LC → Option LC := fun p =>
  if p = chars "m.wgsl" then some (chars "//!ifndef A B\nP\n//!endif\n") else none

/-- Filesystem for the C6 scenario: a module with an `undef` directive for a
name that was never defined. -/
def fsC6x : LC → Option LC := fun p =>
  if p = chars "m.wgsl" then some (chars "//!undef X\n") else none

/-- Filesystem for the C3 counterexample: module A defines macro `FOO`, module
B merely contains the token `FOO`, and module C includes A then B. -/
def fsC3x : LC → Option LC := fun p =>
  if p = chars "c.wgsl" then some (chars "//!include a.wgsl b.wgsl\n")
  else if p = chars "a.wgsl" then some (chars "//!define FOO bar\n")
  else if p = chars "b.wgsl" then some (chars "FOO\n")
  else none

/-- Filesystem for the C3 witness: definition-free modules included on one
line and on two lines. -/
def fsC3w : LC → Option LC := fun p =>
  if p = chars "a.wgsl" then some (chars "x\n")
  else if p = chars "b.wgsl" then some (chars "y\n")
  else if p = chars "c.wgsl" then some (chars "//!include a.wgsl b.wgsl\n")
  else if p = chars "c2.wgsl" then some (chars "//!include a.wgsl\n//!include b.wgsl\n")
  else none

/-- Filesystem for the C8 scenario: the root module `dir/main.wgsl` includes
the token `inc.wgsl`; a file named `inc.wgsl` (the token taken verbatim) and a
file named `dir/inc.wgsl` (the token resolved against the root module's
directory) both exist with different contents. -/
def fsC8 : LC → Option LC := fun p =>
  if p = chars "dir/main.wgsl" then some (chars "//!include inc.wgsl\n")
  else if p = chars "inc.wgsl" then some (chars "B\n")
  else if p = chars "dir/inc.wgsl" then some (chars "A\n")
  else none

/-! Basic lemmas about the string operations. -/

theorem splitP_ne_nil (p : Char → Bool) (s : LC) : splitP p s ≠ [] := by
  cases s with
  | nil => simp [splitP]
  | cons a rest => simp only [splitP]; split <;> simp

theorem splitP_nosep (p : Char → Bool) (s : LC) (h : ∀ a ∈ s, p a = false) :
    splitP p s = [s] := by
  induction s with
  | nil => rfl
  | cons a rest ih =>
    have ha : p a = false := h a (List.mem_cons_self a rest)
    have hrest := ih (fun x hx => h x (List.mem_cons_of_mem a hx))
    simp [splitP, ha, hrest]

theorem splitP_append_sep (p : Char → Bool) (l c r) (hl : ∀ a ∈ l, p a = false)
    (hc : p c = true) : splitP p (l ++ c :: r) = l :: splitP p r := by
  induction l with
  | nil => simp [splitP, hc]
  | cons a l' ih =>
    have ha : p a = false := hl a (List.mem_cons_self a l')
    have h' := ih (fun x hx => hl x (List.mem_cons_of_mem a hx))
    simp [splitP, ha, h']

theorem rustLines_nil : rustLines [] = [] := by rfl

theorem rustLines_append (l rest : LC) (hl : ∀ a ∈ l, a ≠ '\n') :
    rustLines (l ++ '\n' :: rest) = l :: rustLines rest := by
  have hl' : ∀ a ∈ l, (a == '\n') = false := fun a ha => beq_eq_false_iff_ne.mpr (hl a ha)
  have hsep : (('\n' : Char) == '\n') = true := by decide
  unfold rustLines
  rw [splitP_append_sep _ _ _ _ hl' hsep]
  obtain ⟨q, qs, hq⟩ := List.exists_cons_of_ne_nil (splitP_ne_nil (fun c => c == '\n') rest)
  rw [hq]
  simp only [List.getLast?_cons_cons, List.dropLast_cons₂]
  split <;> rfl

theorem dropWhile_eq_self_of_head (q : Char → Bool) (s : LC)
    (h : ∀ c, s.head? = some c → q c = false) : s.dropWhile q = s := by
  cases s with
  | nil => rfl
  | cons a t => simp [List.dropWhile_cons, h a rfl]

theorem trim_eq_self (s : LC) (hh : ∀ c, s.head? = some c → isWS c = false)
    (hl : ∀ c, s.getLast? = some c → isWS c = false) : trim s = s := by
  unfold trim
  rw [dropWhile_eq_self_of_head _ _ hh]
  rw [dropWhile_eq_self_of_head _ _ (by simpa using hl)]
  exact s.reverse_reverse

theorem isPrefixOf_subset : ∀ {l s : LC}, l.isPrefixOf s = true → ∀ a ∈ l, a ∈ s := by
  intro l
  induction l with
  | nil => intro s _ a ha; cases ha
  | cons x xs ih =>
    intro s h a ha
    cases s with
    | nil => simp [List.isPrefixOf] at h
    | cons b bs =>
      simp only [List.isPrefixOf, Bool.and_eq_true, beq_iff_eq] at h
      rcases List.mem_cons.mp ha with rfl | hmem
      · exact h.1 ▸ List.mem_cons_self b bs
      · exact List.mem_cons_of_mem b (ih h.2 a hmem)

theorem occurs_subset {p s : LC} (h : occurs p s = true) : ∀ c ∈ p, c ∈ s := by
  induction s with
  | nil =>
    intro c hc
    cases p with
    | nil => cases hc
    | cons x xs => simp [occurs, List.isPrefixOf] at h
  | cons a t ih =>
    intro c hc
    simp only [occurs, Bool.or_eq_true] at h
    rcases h with h | h
    · exact isPrefixOf_subset h c hc
    · exact List.mem_cons_of_mem a (ih h c hc)

theorem occurs_eq_false_of_mem {p s : LC} {c : Char} (hc : c ∈ p) (hs : c ∉ s) :
    occurs p s = false := by
  cases h : occurs p s with
  | false => rfl
  | true => exact absurd (occurs_subset h c hc) hs

theorem occurs_append_notMem {p : LC} (r t : LC) (hp : p ≠ [])
    (hd : ∀ c ∈ p, c ∉ r) : occurs p (r ++ t) = occurs p t := by
  induction r with
  | nil => rfl
  | cons a r' ih =>
    have step : p.isPrefixOf (a :: (r' ++ t)) = false := by
      cases p with
      | nil => exact absurd rfl hp
      | cons p0 ps =>
        have : p0 ≠ a := by
          intro hpa
          exact hd p0 (List.mem_cons_self p0 ps) (hpa ▸ List.mem_cons_self a r')
        simp [List.isPrefixOf, this]
    have ih' := ih (fun c hc hmem => hd c hc (List.mem_cons_of_mem a hmem))
    calc occurs p ((a :: r') ++ t)
        = (p.isPrefixOf (a :: (r' ++ t)) || occurs p (r' ++ t)) := rfl
      _ = occurs p t := by rw [step, Bool.false_or, ih']

theorem replaceCore_skip (p r : LC) : ∀ (n : Nat) (s : LC),
    replaceCore p r n s = replaceCore p r 0 (s.drop n) := by
  intro n
  induction n with
  | zero => intro s; rfl
  | succ m ih =>
    intro s
    cases s with
    | nil => rfl
    | cons c rest => simpa [replaceCore] using ih rest

theorem replaceCore_isPrefixOf_bounded (p r : LC) (hr : r ≠ []) :
    ∀ (N : Nat) (s q : LC), s.length ≤ N → q ≠ [] → (∀ a ∈ q, a ∉ r) →
    q.isPrefixOf (replaceCore p r 0 s) = true → q.isPrefixOf s = true := by
  intro N
  induction N with
  | zero =>
    intro s q hs hq hd h
    have : s = [] := List.length_eq_zero.mp (Nat.le_zero.mp hs)
    subst this
    cases q with
    | nil => exact absurd rfl hq
    | cons q0 qs => simp [replaceCore, List.isPrefixOf] at h
  | succ N ih =>
    intro s q hs hq hd h
    cases s with
    | nil =>
      cases q with
      | nil => exact absurd rfl hq
      | cons q0 qs => simp [replaceCore, List.isPrefixOf] at h
    | cons c rest =>
      by_cases hm : p.isPrefixOf (c :: rest) = true
      · rw [show replaceCore p r 0 (c :: rest)
            = r ++ replaceCore p r (p.length - 1) rest by simp [replaceCore, hm]] at h
        cases q with
        | nil => exact absurd rfl hq
        | cons q0 qs =>
          cases r with
          | nil => exact absurd rfl hr
          | cons r0 rs =>
            simp only [List.cons_append, List.isPrefixOf, Bool.and_eq_true, beq_iff_eq] at h
            exact absurd (h.1 ▸ List.mem_cons_self r0 rs)
              (hd q0 (List.mem_cons_self q0 qs))
      · rw [show replaceCore p r 0 (c :: rest)
            = c :: replaceCore p r 0 rest by simp [replaceCore, hm]] at h
        cases q with
        | nil => exact absurd rfl hq
        | cons q0 qs =>
          simp only [List.isPrefixOf, Bool.and_eq_true, beq_iff_eq] at h
          by_cases hqs : qs = []
          · subst hqs
            simp [List.isPrefixOf, h.1]
          · have hd' : ∀ a ∈ qs, a ∉ r :=
              fun a ha => hd a (List.mem_cons_of_mem q0 ha)
            have hrest : qs.isPrefixOf rest = true :=
              ih rest qs (Nat.le_of_succ_le_succ hs) hqs hd' h.2
            simp [List.isPrefixOf, h.1, hrest]

theorem occurs_replaceCore_bounded (p r : LC) (hp : p ≠ []) (hr : r ≠ [])
    (hd : ∀ c ∈ p, c ∉ r) : ∀ (N : Nat) (s : LC), s.length ≤ N →
    occurs p (replaceCore p r 0 s) = false := by
  intro N
  induction N with
  | zero =>
    intro s hs
    have : s = [] := List.length_eq_zero.mp (Nat.le_zero.mp hs)
    subst this
    cases p with
    | nil => exact absurd rfl hp
    | cons p0 ps => simp [replaceCore, occurs, List.isPrefixOf]
  | succ N ih =>
    intro s hs
    cases s with
    | nil =>
      cases p with
      | nil => exact absurd rfl hp
      | cons p0 ps => simp [replaceCore, occurs, List.isPrefixOf]
    | cons c rest =>
      by_cases hm : p.isPrefixOf (c :: rest) = true
      · rw [show replaceCore p r 0 (c :: rest)
            = r ++ replaceCore p r (p.length - 1) rest by simp [replaceCore, hm]]
        rw [replaceCore_skip, occurs_append_notMem _ _ hp hd]
        refine ih _ ?_
        have h1 : (rest.drop (p.length - 1)).length ≤ rest.length := by
          simp [List.length_drop]
        have h2 : rest.length ≤ N := Nat.le_of_succ_le_succ hs
        omega
      · rw [show replaceCore p r 0 (c :: rest)
            = c :: replaceCore p r 0 rest by simp [replaceCore, hm]]
        have htail : occurs p (replaceCore p r 0 rest) = false :=
          ih rest (Nat.le_of_succ_le_succ hs)
        have hhead : p.isPrefixOf (c :: replaceCore p r 0 rest) = false := by
          cases hpre : p.isPrefixOf (c :: replaceCore p r 0 rest) with
          | false => rfl
          | true =>
            exfalso
            obtain ⟨p0, ps, hpeq⟩ := List.exists_cons_of_ne_nil hp
            rw [hpeq] at hpre
            simp only [List.isPrefixOf, Bool.and_eq_true, beq_iff_eq] at hpre
            by_cases hps : ps = []
            · apply hm
              rw [hpeq, hps]
              simp [List.isPrefixOf, hpre.1]
            · have hd' : ∀ a ∈ ps, a ∉ r := fun a ha =>
                hd a (hpeq ▸ List.mem_cons_of_mem p0 ha)
              have hpsrest : ps.isPrefixOf rest = true :=
                replaceCore_isPrefixOf_bounded (p0 :: ps) r hr N rest ps
                  (Nat.le_of_succ_le_succ hs) hps hd' hpre.2
              apply hm
              rw [hpeq]
              simp [List.isPrefixOf, hpre.1, hpsrest]
        calc occurs p (c :: replaceCore p r 0 rest)
            = (p.isPrefixOf (c :: replaceCore p r 0 rest)
               || occurs p (replaceCore p r 0 rest)) := rfl
          _ = false := by simp [hhead, htail]

/-- All occurrences of the pattern are gone after `rustReplace` whenever the
replacement is nonempty and shares no character with the pattern. -/
theorem occurs_rustReplace (s p r : LC) (hp : p ≠ []) (hr : r ≠ [])
    (hd : ∀ c ∈ p, c ∉ r) : occurs p (rustReplace s p r) = false := by
  unfold rustReplace
  rw [if_neg hp]
  exact occurs_replaceCore_bounded p r hp hr hd s.length s (Nat.le_refl _)

theorem regexCaptures_eq_none (s : LC)
    (h : occurs (DEFINE_INSTRUCTION ++ [' ']) s = false) : regexCaptures s = none := by
  induction s with
  | nil => rfl
  | cons c rest ih =>
    simp only [occurs, Bool.or_eq_false_iff] at h
    simp only [regexCaptures, h.1, Bool.false_eq_true, if_false]
    exact ih h.2

theorem foldl_append_flatten {α : Type} (f : α → LC) :
    ∀ (l : List α) (init : LC),
    l.foldl (fun acc v => acc ++ f v) init = init ++ (l.map f).flatten := by
  intro l
  induction l with
  | nil => intro init; simp
  | cons x xs ih => intro init; simp [ih, List.append_assoc]

theorem processTokens_congr (f g : LC → Except LoadErr (LC × Defs))
    (h : ∀ p, f p = g p) : ∀ (toks : List LC) (st : LC × Defs),
    processTokens f toks st = processTokens g toks st := by
  intro toks
  induction toks with
  | nil => intro st; rfl
  | cons tok rest ih =>
    intro st
    obtain ⟨t, d⟩ := st
    simp only [processTokens, h tok]
    cases g tok with
    | error e => rfl
    | ok val => exact ih _

theorem processLines_congr (f g : LC → Except LoadErr (LC × Defs))
    (h : ∀ p, f p = g p) : ∀ (lines : List LC) (st : LC × Defs),
    processLines f lines st = processLines g lines st := by
  intro lines
  induction lines with
  | nil => intro st; rfl
  | cons l rest ih =>
    intro st
    obtain ⟨t, d⟩ := st
    simp only [processLines]
    split
    · rw [processTokens_congr f g h]
      cases processTokens g ((splitWhitespace l).drop 1) (t, d) with
      | error e => rfl
      | ok st' => exact ih st'
    · cases regexCaptures l with
      | some nv => exact ih _
      | none => exact ih _

theorem processLines_plain (loadMod : LC → Except LoadErr (LC × Defs)) :
    ∀ (lines : List LC) (t : LC) (d : Defs),
    (∀ l ∈ lines, INCLUDE_INSTRUCTION.isPrefixOf l = false ∧ regexCaptures l = none) →
    processLines loadMod lines (t, d)
      = .ok (t ++ (lines.map (fun l => l ++ ['\n'])).flatten, d) := by
  intro lines
  induction lines with
  | nil => intro t d _; simp [processLines]
  | cons l rest ih =>
    intro t d h
    have hl := h l (List.mem_cons_self l rest)
    have hrest := fun x hx => h x (List.mem_cons_of_mem l hx)
    simp only [processLines, hl.1, Bool.false_eq_true, if_false, hl.2]
    rw [ih (t ++ l ++ ['\n']) d hrest]
    simp [List.append_assoc]

/-! Claim C2. -/

/-- Claim C2: `put_constant` performs whole-string, unscoped substitution: it
is exactly Rust `str::replace` of the macro name by the rendered value (and the
final pass of `load_shader_module` applies that same replacement for a table
entry); `put_constant "ONE" 1u32` eliminates every occurrence of the substring
`ONE`, including occurrences inside longer identifiers such as `COMPONENT`,
which becomes `COMP1uNT`. -/
theorem put_constant_unscoped_substitution :
    (∀ s : LC, put_constant u32Impl s (chars "ONE") 1
      = rustReplace s (chars "ONE") (chars "1u")) ∧
    (∀ s : LC, occurs (chars "ONE") (put_constant u32Impl s (chars "ONE") 1) = false) ∧
    put_constant u32Impl (chars "COMPONENT") (chars "ONE") 1 = chars "COMP1uNT" ∧
    (∀ (t n v : LC), applyDefs [(n, v)] t = rustReplace t n v) := by
  refine ⟨fun s => rfl, fun s => ?_, by decide, fun t n v => rfl⟩
  have hval : u32Impl.string_definition 1 = chars "1u" := by decide
  have h := occurs_rustReplace s (chars "ONE") (chars "1u")
    (by decide) (by decide) (by decide)
  show occurs (chars "ONE") (rustReplace s (chars "ONE") (u32Impl.string_definition 1)) = false
  rw [hval]
  exact h

/-! Claim C4. -/


/-- Claim C4 (amended): `put_array_definition` synthesizes not the bare array
literal but the full private-variable declaration
`var<private> NAME: array<T, N> = array<T, N>(v0,v1,...,);` — with a comma
after every element including the last — and substitutes it for every
occurrence of the text `//!define NAME`; in particular
`put_array_definition "ARR" [1u, 0u]` on a module containing the line
`//!define ARR` yields
`var<private> ARR: array<u32, 2> = array<u32, 2>(1u,0u,);`. -/
theorem put_array_definition_form :
    (∀ (source name : LC) (vs : List Nat),
      put_array_definition u32Impl source name vs
        = rustReplace source (chars "//!define " ++ name)
            (chars "var<private> " ++ name ++ chars ": array<u32, "
              ++ natChars vs.length ++ chars "> = array<u32, " ++ natChars vs.length
              ++ chars ">(" ++ (vs.map (fun v => natChars v ++ chars "u,")).flatten
              ++ chars ");")) ∧
    load_shader_module 1 fsC4 [] (chars "m.wgsl") none
      = .ok (chars "//!define ARR\n", []) ∧
    put_array_definition u32Impl (chars "//!define ARR\n") (chars "ARR") [1, 0]
      = chars "var<private> ARR: array<u32, 2> = array<u32, 2>(1u,0u,);\n" := by
  refine ⟨?_, by rfl, by decide⟩
  intro source name vs
  have hbody : ∀ (l : List Nat) (init : LC),
      l.foldl (fun acc v => acc ++ (u32Impl.string_definition v ++ [','])) init
        = init ++ (l.map (fun v => natChars v ++ chars "u,")).flatten := by
    intro l
    induction l with
    | nil => intro init; simp
    | cons x xs ih =>
      intro init
      rw [List.foldl_cons, ih]
      simp [u32Impl, List.append_assoc]
      rfl
  simp only [put_array_definition, List.append_assoc]
  rw [hbody]
  rfl

/-- Claim C4, counterexample to the exact output text: the synthesized
replacement is the `var<private>` declaration, not the bare literal
`array<u32, 2>(1u,0u,);` the claim states. -/
theorem put_array_definition_exact_text_cex :
    put_array_definition u32Impl (chars "//!define ARR\n") (chars "ARR") [1, 0]
      = chars "var<private> ARR: array<u32, 2> = array<u32, 2>(1u,0u,);\n" ∧
    put_array_definition u32Impl (chars "//!define ARR\n") (chars "ARR") [1, 0]
      ≠ chars "array<u32, 2>(1u,0u,);\n" := by
  constructor
  · decide
  · decide

/-! Claim C9. -/

/-- Claim C9: the derive macro's generated declaration for
`struct Struct { data: u32 }` is not `struct Struct {u32};` — the generated
string interpolates the stringified token stream `u32 . type_name ()` of a
method call (and, for structs with several fields, only the last field's type
appears). -/
theorem derive_declaration_divergence :
    derive_declaration (chars "Struct") [(chars "data", chars "u32")]
      = chars "struct Struct \x7bu32 . type_name ()\x7d;" ∧
    derive_declaration (chars "Struct") [(chars "data", chars "u32")]
      ≠ chars "struct Struct \x7bu32\x7d;" ∧
    derive_declaration (chars "S") [(chars "a", chars "u32"), (chars "b", chars "f32")]
      = chars "struct S \x7bf32 . type_name ()\x7d;" := by
  refine ⟨by decide, by decide, by decide⟩

/-! Claim C10. -/

/-- Claim C10: with `defines = None` the conditional filter is skipped
entirely: every line of the module that is neither an include line nor a
`MACRO_REGEX` match — which covers all `//!ifdef` / `//!ifndef` / `//!else` /
`//!endif` directive lines — is copied verbatim (with its newline) into the
output, and no definitions are collected. -/
theorem conditional_directives_uninterpreted_without_defines
    (fuel : Nat) (fs : LC → Option LC) (base p content : LC)
    (hfs : fs p = some content)
    (hlines : ∀ l ∈ rustLines content,
      INCLUDE_INSTRUCTION.isPrefixOf l = false ∧ regexCaptures l = none) :
    load_shader_module (fuel + 1) fs base p none
      = .ok (((rustLines content).map (fun l => l ++ ['\n'])).flatten, []) := by
  simp only [load_shader_module, hfs]
  rw [processLines_plain _ _ _ _ hlines]
  rfl


/-- Witness for C10: loading the conditional module with `defines = None`
returns its text unchanged, the directive lines included. -/
theorem conditional_directives_uninterpreted_without_defines_witness :
    load_shader_module 1 fsC10 [] (chars "m.wgsl") none
      = .ok (chars "//!ifdef X\nA\n//!else\nB\n//!endif\n", []) :=
  (conditional_directives_uninterpreted_without_defines 0 fsC10 [] (chars "m.wgsl")
    (chars "//!ifdef X\nA\n//!else\nB\n//!endif\n") rfl (by decide)).trans rfl

/-! Lemmas for line splitting, trimming and the conditional filter. -/

theorem mem_of_getLast?_eq {l : LC} {a : Char} (h : l.getLast? = some a) : a ∈ l := by
  have h2 := List.mem_getLast?_eq_getLast (x := a) (l := l) (by rw [h]; rfl)
  obtain ⟨hne, rfl⟩ := h2
  exact List.getLast_mem hne

theorem rustLines_joinLines : ∀ (ls : List LC), (∀ l ∈ ls, '\n' ∉ l) →
    rustLines (joinLines ls) = ls := by
  intro ls
  induction ls with
  | nil => intro _; rfl
  | cons l rest ih =>
    intro h
    have hstep : joinLines (l :: rest) = l ++ '\n' :: joinLines rest := by
      simp [joinLines, List.append_assoc]
    rw [hstep, rustLines_append l _
      (fun a ha hne => (h l (List.mem_cons_self l rest)) (hne ▸ ha))]
    rw [ih (fun x hx => h x (List.mem_cons_of_mem l hx))]

theorem parseDefines_else (ds : List LC) (add : Bool) (rest : List LC) :
    parseDefinesLines ds add (chars "//!else" :: rest) = parseDefinesLines ds (!add) rest := rfl

theorem parseDefines_endif (ds : List LC) (add : Bool) (rest : List LC) :
    parseDefinesLines ds add (chars "//!endif" :: rest) = parseDefinesLines ds true rest := rfl

theorem parseDefines_ifdef_noArg (ds : List LC) (add : Bool) (rest : List LC) :
    parseDefinesLines ds add (chars "//!ifdef" :: rest) = none := rfl

theorem trim_ifdef_line (R : LC) (hR : R ≠ [])
    (hRc : ∀ c, R.getLast? = some c → isWS c = false) :
    trim (chars "//!ifdef " ++ R) = chars "//!ifdef " ++ R := by
  apply trim_eq_self
  · intro c hc
    rw [show (chars "//!ifdef " ++ R).head? = some '/' from rfl] at hc
    cases hc
    decide
  · intro c hc
    rw [List.getLast?_append_of_ne_nil _ hR] at hc
    exact hRc c hc

theorem trim_ifndef_line (R : LC) (hR : R ≠ [])
    (hRc : ∀ c, R.getLast? = some c → isWS c = false) :
    trim (chars "//!ifndef " ++ R) = chars "//!ifndef " ++ R := by
  apply trim_eq_self
  · intro c hc
    rw [show (chars "//!ifndef " ++ R).head? = some '/' from rfl] at hc
    cases hc
    decide
  · intro c hc
    rw [List.getLast?_append_of_ne_nil _ hR] at hc
    exact hRc c hc

theorem beq_space_eq_false {a : Char} (h : isWS a = false) : (a == ' ') = false := by
  refine beq_eq_false_iff_ne.mpr ?_
  intro hne
  subst hne
  simp [isWS] at h

theorem parseDefines_ifdef (ds : List LC) (add : Bool) (X : LC) (rest : List LC)
    (hX : X ≠ []) (hXc : ∀ c ∈ X, isWS c = false) :
    parseDefinesLines ds add ((chars "//!ifdef " ++ X) :: rest)
      = parseDefinesLines ds (ds.contains X) rest := by
  have htrim : trim (chars "//!ifdef " ++ X) = chars "//!ifdef " ++ X :=
    trim_ifdef_line X hX (fun c hc => hXc c (mem_of_getLast?_eq hc))
  have hsplit : (splitP (fun c => c == ' ') (chars "//!ifdef " ++ X))[1]? = some X := by
    rw [show chars "//!ifdef " ++ X = chars "//!ifdef" ++ ' ' :: X from rfl]
    rw [splitP_append_sep _ _ _ _ (by decide) (by decide)]
    rw [splitP_nosep _ X (fun a ha => beq_space_eq_false (hXc a ha))]
    rfl
  have h1 : ELSE_INSTRUCTION.isPrefixOf (chars "//!ifdef " ++ X) = false := rfl
  have h2 : ENDIF_INSTRUCTION.isPrefixOf (chars "//!ifdef " ++ X) = false := rfl
  have h3 : IFDEF_INSTRUCTION.isPrefixOf (chars "//!ifdef " ++ X) = true := rfl
  simp only [parseDefinesLines, htrim, h1, h2, h3, Bool.false_eq_true, if_false, if_true]
  rw [hsplit]

theorem parseDefines_ifndef (ds : List LC) (add : Bool) (X : LC) (rest : List LC)
    (hX : X ≠ []) (hXc : ∀ c ∈ X, isWS c = false) :
    parseDefinesLines ds add ((chars "//!ifndef " ++ X) :: rest)
      = parseDefinesLines ds (!(ds.contains X)) rest := by
  have htrim : trim (chars "//!ifndef " ++ X) = chars "//!ifndef " ++ X :=
    trim_ifndef_line X hX (fun c hc => hXc c (mem_of_getLast?_eq hc))
  have hsplit : (splitP (fun c => c == ' ') (chars "//!ifndef " ++ X))[1]? = some X := by
    rw [show chars "//!ifndef " ++ X = chars "//!ifndef" ++ ' ' :: X from rfl]
    rw [splitP_append_sep _ _ _ _ (by decide) (by decide)]
    rw [splitP_nosep _ X (fun a ha => beq_space_eq_false (hXc a ha))]
    rfl
  have h1 : ELSE_INSTRUCTION.isPrefixOf (chars "//!ifndef " ++ X) = false := rfl
  have h2 : ENDIF_INSTRUCTION.isPrefixOf (chars "//!ifndef " ++ X) = false := rfl
  have h3 : IFDEF_INSTRUCTION.isPrefixOf (chars "//!ifndef " ++ X) = false := rfl
  have h4 : IFNDEF_INSTRUCTION.isPrefixOf (chars "//!ifndef " ++ X) = true := rfl
  simp only [parseDefinesLines, htrim, h1, h2, h3, h4, Bool.false_eq_true, if_false, if_true]
  rw [hsplit]

theorem parseDefines_plain_true (ds : List LC) (P : LC) (rest : List LC) (hP : plainLine P) :
    parseDefinesLines ds true (P :: rest)
      = Option.map (fun out => P ++ '\n' :: out) (parseDefinesLines ds true rest) := by
  obtain ⟨htrim, hne, hnl, h1, h2, h3, h4⟩ := hP
  simp only [parseDefinesLines, htrim, h1, h2, h3, h4, Bool.false_eq_true, if_false, if_true]
  have hcond : ¬(P = ['\n'] ∨ P = []) := by
    intro h
    rcases h with h | h
    · rw [h] at htrim
      exact absurd htrim (by decide)
    · exact hne h
  rw [if_neg hcond]
  cases parseDefinesLines ds true rest with
  | none => rfl
  | some out => simp [List.append_assoc]

theorem parseDefines_plain_false (ds : List LC) (P : LC) (rest : List LC) (hP : plainLine P) :
    parseDefinesLines ds false (P :: rest) = parseDefinesLines ds false rest := by
  obtain ⟨htrim, hne, hnl, h1, h2, h3, h4⟩ := hP
  simp only [parseDefinesLines, htrim, h1, h2, h3, h4, Bool.false_eq_true, if_false]

theorem parseDefines_keepAll (ds : List LC) : ∀ (lines : List LC),
    (∀ l ∈ lines, plainLine l) →
    parseDefinesLines ds true lines = some (joinLines lines) := by
  intro lines
  induction lines with
  | nil => intro _; rfl
  | cons l rest ih =>
    intro h
    rw [parseDefines_plain_true ds l rest (h l (List.mem_cons_self l rest))]
    rw [ih (fun x hx => h x (List.mem_cons_of_mem l hx))]
    simp [joinLines, List.append_assoc]

theorem noNl_token {X : LC} (hXc : ∀ c ∈ X, isWS c = false) : '\n' ∉ X := by
  intro h
  have := hXc _ h
  simp [isWS] at this

theorem noNl_append {A X : LC} (hA : '\n' ∉ A) (hX : '\n' ∉ X) : '\n' ∉ A ++ X := by
  intro h
  exact (List.mem_append.mp h).elim hA hX

/-! Claim C1. -/

/-- Claim C1 (amended): for an `ifdef X` / `else` / `endif` group around plain
lines `P` and `Q`, the conditional filter keeps `P` exactly when `X` is a
member of the externally passed defines list and keeps `Q` otherwise — a
`define X` directive earlier in the source does not participate in the check —
and `ifndef X` selects exactly the branches that `ifdef X` rejects. -/
theorem ifdef_ifndef_selection (ds : List LC) (X P Q : LC)
    (hX : X ≠ []) (hXc : ∀ c ∈ X, isWS c = false)
    (hP : plainLine P) (hQ : plainLine Q) :
    parse_defines
        (joinLines [chars "//!ifdef " ++ X, P, chars "//!else", Q, chars "//!endif"]) ds
      = some (if ds.contains X then P ++ ['\n'] else Q ++ ['\n']) ∧
    parse_defines
        (joinLines [chars "//!ifndef " ++ X, P, chars "//!else", Q, chars "//!endif"]) ds
      = some (if ds.contains X then Q ++ ['\n'] else P ++ ['\n']) := by
  have hnlX : '\n' ∉ X := noNl_token hXc
  have hnl1 : '\n' ∉ chars "//!ifdef " ++ X := noNl_append (by decide) hnlX
  have hnl1' : '\n' ∉ chars "//!ifndef " ++ X := noNl_append (by decide) hnlX
  have htail : ∀ add : Bool,
      parseDefinesLines ds add [P, chars "//!else", Q, chars "//!endif"]
        = some (if add then P ++ ['\n'] else Q ++ ['\n']) := by
    intro add
    cases add with
    | true =>
      rw [parseDefines_plain_true ds P _ hP, parseDefines_else,
        show (!true) = false from rfl, parseDefines_plain_false ds Q _ hQ,
        parseDefines_endif]
      rfl
    | false =>
      rw [parseDefines_plain_false ds P _ hP, parseDefines_else,
        show (!false) = true from rfl, parseDefines_plain_true ds Q _ hQ,
        parseDefines_endif]
      rfl
  constructor
  · unfold parse_defines
    rw [rustLines_joinLines _ (by
      intro l hl
      simp only [List.mem_cons, List.not_mem_nil, or_false] at hl
      rcases hl with rfl | rfl | rfl | rfl | rfl
      · exact hnl1
      · exact hP.2.2.1
      · decide
      · exact hQ.2.2.1
      · decide)]
    rw [parseDefines_ifdef ds true X _ hX hXc, htail]
  · unfold parse_defines
    rw [rustLines_joinLines _ (by
      intro l hl
      simp only [List.mem_cons, List.not_mem_nil, or_false] at hl
      rcases hl with rfl | rfl | rfl | rfl | rfl
      · exact hnl1'
      · exact hP.2.2.1
      · decide
      · exact hQ.2.2.1
      · decide)]
    rw [parseDefines_ifndef ds true X _ hX hXc, htail]
    cases ds.contains X <;> rfl

/-- Witness for C1 at `X := "X"`, `P := "A"`, `Q := "B"`, external defines
`["X"]`. -/
theorem ifdef_ifndef_selection_witness :
    parse_defines
        (joinLines [chars "//!ifdef " ++ chars "X", chars "A", chars "//!else",
          chars "B", chars "//!endif"]) [chars "X"]
      = some (if [chars "X"].contains (chars "X") then chars "A" ++ ['\n']
          else chars "B" ++ ['\n']) ∧
    parse_defines
        (joinLines [chars "//!ifndef " ++ chars "X", chars "A", chars "//!else",
          chars "B", chars "//!endif"]) [chars "X"]
      = some (if [chars "X"].contains (chars "X") then chars "B" ++ ['\n']
          else chars "A" ++ ['\n']) :=
  ifdef_ifndef_selection [chars "X"] (chars "X") (chars "A") (chars "B")
    (by decide) (by decide) (by decide) (by decide)

/-- Counterexample for C1 as stated: with an empty external defines list, a
module that performs `//!define X 1` before `//!ifdef X` still takes the
`else` branch — the `define` directive does not make `X` defined for the
conditional filter. -/
theorem define_directive_not_predefining_cex :
    load_shader_module 1 fsC1x [] (chars "m.wgsl") (some [])
      = .ok (chars "B\n", [(chars "X", chars "1")]) ∧
    chars "B\n" ≠ chars "A\n" := by
  constructor
  · rfl
  · decide

/-! Claim C5. -/

/-- Claim C5 (amended): an `ifdef` (or `ifndef`) guard without a matching
`endif` is not an error — there is no conditional stack and no
`UnterminatedConditional` failure in the code; the filter simply keeps or
drops every following line according to the last guard evaluated, and
processing succeeds. -/
theorem unterminated_conditional_no_failure (ds : List LC) (X P : LC)
    (hX : X ≠ []) (hXc : ∀ c ∈ X, isWS c = false) (hP : plainLine P) :
    parse_defines (joinLines [chars "//!ifdef " ++ X, P]) ds
      = some (if ds.contains X then P ++ ['\n'] else []) ∧
    parse_defines (joinLines [chars "//!ifndef " ++ X, P]) ds
      = some (if ds.contains X then [] else P ++ ['\n']) := by
  have hnlX : '\n' ∉ X := noNl_token hXc
  have hlines1 : ∀ l ∈ [chars "//!ifdef " ++ X, P], '\n' ∉ l := by
    intro l hl
    simp only [List.mem_cons, List.not_mem_nil, or_false] at hl
    rcases hl with rfl | rfl
    · exact noNl_append (by decide) hnlX
    · exact hP.2.2.1
  have hlines2 : ∀ l ∈ [chars "//!ifndef " ++ X, P], '\n' ∉ l := by
    intro l hl
    simp only [List.mem_cons, List.not_mem_nil, or_false] at hl
    rcases hl with rfl | rfl
    · exact noNl_append (by decide) hnlX
    · exact hP.2.2.1
  constructor
  · unfold parse_defines
    rw [rustLines_joinLines _ hlines1, parseDefines_ifdef ds true X _ hX hXc]
    cases ds.contains X
    · rw [parseDefines_plain_false ds P _ hP]
      rfl
    · rw [parseDefines_plain_true ds P _ hP]
      rfl
  · unfold parse_defines
    rw [rustLines_joinLines _ hlines2, parseDefines_ifndef ds true X _ hX hXc]
    cases ds.contains X
    · rw [show (!false) = true from rfl, parseDefines_plain_true ds P _ hP]
      rfl
    · rw [show (!true) = false from rfl, parseDefines_plain_false ds P _ hP]
      rfl

/-- Witness for C5 at `X := "X"`, `P := "A"`, external defines `[]`. -/
theorem unterminated_conditional_no_failure_witness :
    parse_defines (joinLines [chars "//!ifdef " ++ chars "X", chars "A"]) []
      = some (if List.contains [] (chars "X") then chars "A" ++ ['\n'] else []) ∧
    parse_defines (joinLines [chars "//!ifndef " ++ chars "X", chars "A"]) []
      = some (if List.contains [] (chars "X") then [] else chars "A" ++ ['\n']) :=
  unterminated_conditional_no_failure [] (chars "X") (chars "A")
    (by decide) (by decide) (by decide)

/-- Counterexample for C5 as stated: a module whose `ifdef` is never closed
loads successfully (with the guarded line dropped or kept according to the
guard); no error of any kind is reported. -/
theorem unterminated_conditional_cex :
    load_shader_module 1 fsC5x [] (chars "m.wgsl") (some []) = .ok ([], []) ∧
    load_shader_module 1 fsC5x [] (chars "m.wgsl") (some [chars "X"])
      = .ok (chars "A\n", []) := by
  constructor
  · rfl
  · rfl

/-! Claim C7. -/

/-- Trim stability for an `ifdef` line with two arguments. -/
theorem trim_ifdef_twoArg_line (X B : LC) (hX : X ≠ []) (hXc : ∀ c ∈ X, isWS c = false)
    (hB : B ≠ []) (hBc : ∀ c ∈ B, isWS c = false) :
    trim (chars "//!ifdef " ++ (X ++ ' ' :: B)) = chars "//!ifdef " ++ (X ++ ' ' :: B) := by
  apply trim_ifdef_line
  · exact List.append_ne_nil_of_right_ne_nil X (by simp)
  · intro c hc
    rw [List.getLast?_append_cons] at hc
    rw [show (' ' :: B) = [' '] ++ B from rfl, List.getLast?_append_of_ne_nil _ hB] at hc
    exact hBc c (mem_of_getLast?_eq hc)

/-- Trim stability for an `ifndef` line with two arguments. -/
theorem trim_ifndef_twoArg_line (X B : LC) (hX : X ≠ []) (hXc : ∀ c ∈ X, isWS c = false)
    (hB : B ≠ []) (hBc : ∀ c ∈ B, isWS c = false) :
    trim (chars "//!ifndef " ++ (X ++ ' ' :: B)) = chars "//!ifndef " ++ (X ++ ' ' :: B) := by
  apply trim_ifndef_line
  · exact List.append_ne_nil_of_right_ne_nil X (by simp)
  · intro c hc
    rw [List.getLast?_append_cons] at hc
    rw [show (' ' :: B) = [' '] ++ B from rfl, List.getLast?_append_of_ne_nil _ hB] at hc
    exact hBc c (mem_of_getLast?_eq hc)

theorem parseDefines_ifndef_noArg (ds : List LC) (add : Bool) (rest : List LC) :
    parseDefinesLines ds add (chars "//!ifndef" :: rest) = none := rfl

/-- Claim C7 (amended): an `ifdef` or `ifndef` directive with no argument
makes the build panic (`.nth(1).unwrap()` on a missing element), it does not
produce a `MalformedDirective` error; an `ifdef` or `ifndef` directive with
more than one argument succeeds, using the first argument and ignoring the
rest. -/
theorem conditional_wrong_arity_behavior (ds : List LC) (add : Bool) (X B : LC)
    (rest : List LC)
    (hX : X ≠ []) (hXc : ∀ c ∈ X, isWS c = false)
    (hB : B ≠ []) (hBc : ∀ c ∈ B, isWS c = false) :
    parseDefinesLines ds add (chars "//!ifdef" :: rest) = none ∧
    parseDefinesLines ds add (chars "//!ifndef" :: rest) = none ∧
    parseDefinesLines ds add ((chars "//!ifdef " ++ X ++ [' '] ++ B) :: rest)
      = parseDefinesLines ds (ds.contains X) rest ∧
    parseDefinesLines ds add ((chars "//!ifndef " ++ X ++ [' '] ++ B) :: rest)
      = parseDefinesLines ds (!(ds.contains X)) rest := by
  refine ⟨parseDefines_ifdef_noArg ds add rest, parseDefines_ifndef_noArg ds add rest,
    ?_, ?_⟩
  · have hre : chars "//!ifdef " ++ X ++ [' '] ++ B
        = chars "//!ifdef " ++ (X ++ ' ' :: B) := by
      simp [List.append_assoc]
    rw [hre]
    have htrim := trim_ifdef_twoArg_line X B hX hXc hB hBc
    have hsplit : (splitP (fun c => c == ' ') (chars "//!ifdef " ++ (X ++ ' ' :: B)))[1]?
        = some X := by
      rw [show chars "//!ifdef " ++ (X ++ ' ' :: B)
          = chars "//!ifdef" ++ ' ' :: (X ++ ' ' :: B) from rfl]
      rw [splitP_append_sep _ _ _ _ (by decide) (by decide)]
      rw [splitP_append_sep _ _ _ _ (fun a ha => beq_space_eq_false (hXc a ha)) (by decide)]
      simp
    have h1 : ELSE_INSTRUCTION.isPrefixOf (chars "//!ifdef " ++ (X ++ ' ' :: B))
        = false := rfl
    have h2 : ENDIF_INSTRUCTION.isPrefixOf (chars "//!ifdef " ++ (X ++ ' ' :: B))
        = false := rfl
    have h3 : IFDEF_INSTRUCTION.isPrefixOf (chars "//!ifdef " ++ (X ++ ' ' :: B))
        = true := rfl
    simp only [parseDefinesLines, htrim, h1, h2, h3, Bool.false_eq_true, if_false, if_true]
    rw [hsplit]
  · have hre : chars "//!ifndef " ++ X ++ [' '] ++ B
        = chars "//!ifndef " ++ (X ++ ' ' :: B) := by
      simp [List.append_assoc]
    rw [hre]
    have htrim := trim_ifndef_twoArg_line X B hX hXc hB hBc
    have hsplit : (splitP (fun c => c == ' ') (chars "//!ifndef " ++ (X ++ ' ' :: B)))[1]?
        = some X := by
      rw [show chars "//!ifndef " ++ (X ++ ' ' :: B)
          = chars "//!ifndef" ++ ' ' :: (X ++ ' ' :: B) from rfl]
      rw [splitP_append_sep _ _ _ _ (by decide) (by decide)]
      rw [splitP_append_sep _ _ _ _ (fun a ha => beq_space_eq_false (hXc a ha)) (by decide)]
      simp
    have h1 : ELSE_INSTRUCTION.isPrefixOf (chars "//!ifndef " ++ (X ++ ' ' :: B))
        = false := rfl
    have h2 : ENDIF_INSTRUCTION.isPrefixOf (chars "//!ifndef " ++ (X ++ ' ' :: B))
        = false := rfl
    have h3 : IFDEF_INSTRUCTION.isPrefixOf (chars "//!ifndef " ++ (X ++ ' ' :: B))
        = false := rfl
    have h4 : IFNDEF_INSTRUCTION.isPrefixOf (chars "//!ifndef " ++ (X ++ ' ' :: B))
        = true := rfl
    simp only [parseDefinesLines, htrim, h1, h2, h3, h4, Bool.false_eq_true, if_false,
      if_true]
    rw [hsplit]

/-- Witness for C7 at `X := "A"`, `B := "B"`. -/
theorem conditional_wrong_arity_behavior_witness :
    parseDefinesLines [] true (chars "//!ifdef" :: []) = none ∧
    parseDefinesLines [] true (chars "//!ifndef" :: []) = none ∧
    parseDefinesLines [] true ((chars "//!ifdef " ++ chars "A" ++ [' '] ++ chars "B") :: [])
      = parseDefinesLines [] (List.contains [] (chars "A")) [] ∧
    parseDefinesLines [] true ((chars "//!ifndef " ++ chars "A" ++ [' '] ++ chars "B") :: [])
      = parseDefinesLines [] (!(List.contains [] (chars "A"))) [] :=
  conditional_wrong_arity_behavior [] true (chars "A") (chars "B") []
    (by decide) (by decide) (by decide) (by decide)

/-- Counterexample for C7 as stated: a two-argument `ifdef` or `ifndef` does
not fail at all — the module loads successfully using the first argument — and
a zero-argument `ifdef` or `ifndef` panics (modelled by `none`) instead of
reporting a `MalformedDirective` error. -/
theorem conditional_wrong_arity_cex :
    load_shader_module 1 fsC7x [] (chars "m.wgsl") (some [chars "A"])
      = .ok (chars "P\n", []) ∧
    load_shader_module 1 fsC7nx [] (chars "m.wgsl") (some [])
      = .ok (chars "P\n", []) ∧
    parse_defines (chars "//!ifdef\nP\n") [] = none ∧
    parse_defines (chars "//!ifndef\nP\n") [] = none := by
  refine ⟨rfl, rfl, rfl, rfl⟩

/-! Claim C6. -/

theorem occurs_cons_false {p : LC} {c : Char} {t : LC}
    (h1 : p.isPrefixOf (c :: t) = false) (h2 : occurs p t = false) :
    occurs p (c :: t) = false := by
  simp [occurs, h1, h2]

theorem trim_append_of (A R : LC) (hA : ∀ c, A.head? = some c → isWS c = false)
    (hAne : A ≠ []) (hR : R ≠ []) (hRc : ∀ c, R.getLast? = some c → isWS c = false) :
    trim (A ++ R) = A ++ R := by
  apply trim_eq_self
  · intro c hc
    cases A with
    | nil => exact absurd rfl hAne
    | cons a t =>
      rw [show ((a :: t) ++ R).head? = some a from rfl] at hc
      cases hc
      exact hA _ rfl
  · intro c hc
    rw [List.getLast?_append_of_ne_nil _ hR] at hc
    exact hRc c hc

/-- Claim C6 (amended): `undef` is not a recognized directive at all: for any
defines mode, a module whose single line is `//!undef <name>` — with `<name>`
defined or not — loads successfully, the line is copied verbatim into the
output as ordinary text, and the macro table is left empty; no
`UndefinedSymbol` error exists. -/
theorem undef_directive_not_recognized (fuel : Nat) (fs : LC → Option LC)
    (base p name : LC) (d : Option (List LC))
    (hn : name ≠ []) (hnc : ∀ c ∈ name, isWS c = false)
    (hfs : fs p = some (joinLines [chars "//!undef " ++ name])) :
    load_shader_module (fuel + 1) fs base p d
      = .ok (joinLines [chars "//!undef " ++ name], []) := by
  have hplain : plainLine (chars "//!undef " ++ name) := by
    refine ⟨?_, ?_, ?_, rfl, rfl, rfl, rfl⟩
    · refine trim_append_of _ _ ?_ (by decide) hn
        (fun c hc => hnc c (mem_of_getLast?_eq hc))
      intro c hc
      rw [show (chars "//!undef ").head? = some '/' from rfl] at hc
      cases hc
      decide
    · intro h
      exact (by decide : chars "//!undef " ≠ []) (List.append_eq_nil.mp h).1
    · exact noNl_append (by decide) (noNl_token hnc)
  have hrl : rustLines (joinLines [chars "//!undef " ++ name])
      = [chars "//!undef " ++ name] := by
    refine rustLines_joinLines _ ?_
    intro l hl
    simp only [List.mem_cons, List.not_mem_nil, or_false] at hl
    subst hl
    exact hplain.2.2.1
  have hocc : occurs (DEFINE_INSTRUCTION ++ [' ']) (chars "//!undef " ++ name) = false := by
    have hname : occurs (DEFINE_INSTRUCTION ++ [' ']) name = false :=
      occurs_eq_false_of_mem (c := ' ') (by decide)
        (fun hmem => by have := hnc _ hmem; simp [isWS] at this)
    exact occurs_cons_false rfl (occurs_cons_false rfl (occurs_cons_false rfl
      (occurs_cons_false rfl (occurs_cons_false rfl (occurs_cons_false rfl
        (occurs_cons_false rfl (occurs_cons_false rfl
          (occurs_cons_false rfl hname))))))))
  have hcap : regexCaptures (chars "//!undef " ++ name) = none :=
    regexCaptures_eq_none _ hocc
  have hinc : INCLUDE_INSTRUCTION.isPrefixOf (chars "//!undef " ++ name) = false := rfl
  have hproc : processLines
      (fun q => load_shader_module fuel fs base q d)
      [chars "//!undef " ++ name] ([], [])
      = .ok (joinLines [chars "//!undef " ++ name], []) := by
    rw [processLines_plain _ _ _ _ (by
      intro l hl
      simp only [List.mem_cons, List.not_mem_nil, or_false] at hl
      subst hl
      exact ⟨hinc, hcap⟩)]
    rfl
  cases d with
  | none =>
    simp only [load_shader_module, hfs]
    rw [hrl, hproc]
    rfl
  | some ds =>
    have hparse : parse_defines (joinLines [chars "//!undef " ++ name]) ds
        = some (joinLines [chars "//!undef " ++ name]) := by
      unfold parse_defines
      rw [hrl]
      refine parseDefines_keepAll ds _ ?_
      intro l hl
      simp only [List.mem_cons, List.not_mem_nil, or_false] at hl
      subst hl
      exact hplain
    simp only [load_shader_module, hfs, hparse]
    rw [hrl, hproc]
    rfl

/-- Witness for C6 at `name := "X"` with no external defines. -/
theorem undef_directive_not_recognized_witness :
    load_shader_module 1 fsC6x [] (chars "m.wgsl") none
      = .ok (joinLines [chars "//!undef " ++ chars "X"], []) :=
  undef_directive_not_recognized 0 fsC6x [] (chars "m.wgsl") (chars "X") none
    (by decide) (by decide) rfl

/-- Counterexample for C6 as stated: `undef` of a never-defined name does not
fail — the build succeeds, the directive line is emitted verbatim, and the
macro table is unchanged (empty); the same happens when a defines list is
passed. -/
theorem undef_no_error_cex :
    load_shader_module 1 fsC6x [] (chars "m.wgsl") none
      = .ok (chars "//!undef X\n", []) ∧
    load_shader_module 1 fsC6x [] (chars "m.wgsl") (some [])
      = .ok (chars "//!undef X\n", []) := by
  constructor
  · rfl
  · rfl

/-! Claim C3. -/

theorem plainLine_include (R : LC) (hR : R ≠ [])
    (hRl : ∀ c, R.getLast? = some c → isWS c = false) (hnl : '\n' ∉ R) :
    plainLine (chars "//!include " ++ R) := by
  refine ⟨?_, ?_, ?_, rfl, rfl, rfl, rfl⟩
  · refine trim_append_of _ _ ?_ (by decide) hR hRl
    intro c hc
    rw [show (chars "//!include ").head? = some '/' from rfl] at hc
    cases hc
    decide
  · intro h
    exact (by decide : chars "//!include " ≠ []) (List.append_eq_nil.mp h).1
  · exact noNl_append (by decide) hnl

theorem splitWhitespace_include_two (pA pB : LC)
    (hAc : ∀ c ∈ pA, isWS c = false) (hB : pB ≠ []) (hBc : ∀ c ∈ pB, isWS c = false) :
    splitWhitespace (chars "//!include " ++ (pA ++ ' ' :: pB))
      = List.filter (fun t => !t.isEmpty) ([chars "//!include"] ++ [pA] ++ [pB]) := by
  unfold splitWhitespace
  rw [show chars "//!include " ++ (pA ++ ' ' :: pB)
      = chars "//!include" ++ ' ' :: (pA ++ ' ' :: pB) from rfl]
  rw [splitP_append_sep isWS _ _ _ (by decide) (by decide)]
  rw [splitP_append_sep isWS _ _ _ hAc (by decide)]
  rw [splitP_nosep isWS pB hBc]
  rfl

theorem splitWhitespace_include_one (pA : LC) (hAc : ∀ c ∈ pA, isWS c = false) :
    splitWhitespace (chars "//!include " ++ pA)
      = List.filter (fun t => !t.isEmpty) ([chars "//!include"] ++ [pA]) := by
  unfold splitWhitespace
  rw [show chars "//!include " ++ pA = chars "//!include" ++ ' ' :: pA from rfl]
  rw [splitP_append_sep isWS _ _ _ (by decide) (by decide)]
  rw [splitP_nosep isWS pA hAc]
  rfl

theorem filter_nonEmpty_cons (l : LC) (hl : l ≠ []) (rest : List LC) :
    List.filter (fun t => !t.isEmpty) (l :: rest)
      = l :: List.filter (fun t => !t.isEmpty) rest := by
  obtain ⟨a, as, rfl⟩ := List.exists_cons_of_ne_nil hl
  simp [List.filter]

/-- Claim C3 (amended): when the two included modules produce empty macro
tables, a module that includes A then B — on one `//!include` line or on two —
yields exactly the concatenation of processing A alone and processing B alone.
(When A or B define macros the merged table is re-applied to the concatenated
text and the equality can fail; see the counterexample.) -/
theorem include_concatenation (fuel : Nat) (fs : LC → Option LC) (base : LC)
    (d : Option (List LC)) (pA pB pC pC2 ta tb : LC)
    (hA : pA ≠ []) (hAc : ∀ c ∈ pA, isWS c = false)
    (hB : pB ≠ []) (hBc : ∀ c ∈ pB, isWS c = false)
    (hlA : load_shader_module fuel fs base pA d = .ok (ta, []))
    (hlB : load_shader_module fuel fs base pB d = .ok (tb, []))
    (hC : fs pC = some (joinLines [chars "//!include " ++ (pA ++ ' ' :: pB)]))
    (hC2 : fs pC2 = some (joinLines [chars "//!include " ++ pA, chars "//!include " ++ pB])) :
    load_shader_module (fuel + 1) fs base pC d = .ok (ta ++ tb, []) ∧
    load_shader_module (fuel + 1) fs base pC2 d = .ok (ta ++ tb, []) := by
  have hnlA : '\n' ∉ pA := noNl_token hAc
  have hnlB : '\n' ∉ pB := noNl_token hBc
  have hplain1 : plainLine (chars "//!include " ++ (pA ++ ' ' :: pB)) := by
    refine plainLine_include _ (by simp) ?_ ?_
    · intro c hc
      rw [List.getLast?_append_cons, show (' ' :: pB) = [' '] ++ pB from rfl,
        List.getLast?_append_of_ne_nil _ hB] at hc
      exact hBc c (mem_of_getLast?_eq hc)
    · intro h
      rcases List.mem_append.mp h with h | h
      · exact hnlA h
      · rcases List.mem_cons.mp h with h | h
        · exact absurd h.symm (by decide)
        · exact hnlB h
  have hplainA : plainLine (chars "//!include " ++ pA) :=
    plainLine_include pA hA (fun c hc => hAc c (mem_of_getLast?_eq hc)) hnlA
  have hplainB : plainLine (chars "//!include " ++ pB) :=
    plainLine_include pB hB (fun c hc => hBc c (mem_of_getLast?_eq hc)) hnlB
  have hsw2 : (splitWhitespace (chars "//!include " ++ (pA ++ ' ' :: pB))).drop 1
      = [pA, pB] := by
    rw [splitWhitespace_include_two pA pB hAc hB hBc]
    rw [show ([chars "//!include"] ++ [pA] ++ [pB]) = chars "//!include" :: pA :: [pB] from rfl]
    rw [filter_nonEmpty_cons _ (by decide), filter_nonEmpty_cons _ hA,
      filter_nonEmpty_cons _ hB]
    rfl
  have hswA : (splitWhitespace (chars "//!include " ++ pA)).drop 1 = [pA] := by
    rw [splitWhitespace_include_one pA hAc]
    rw [show ([chars "//!include"] ++ [pA]) = chars "//!include" :: [pA] from rfl]
    rw [filter_nonEmpty_cons _ (by decide), filter_nonEmpty_cons _ hA]
    rfl
  have hswB : (splitWhitespace (chars "//!include " ++ pB)).drop 1 = [pB] := by
    rw [splitWhitespace_include_one pB hBc]
    rw [show ([chars "//!include"] ++ [pB]) = chars "//!include" :: [pB] from rfl]
    rw [filter_nonEmpty_cons _ (by decide), filter_nonEmpty_cons _ hB]
    rfl
  have hinc1 : INCLUDE_INSTRUCTION.isPrefixOf (chars "//!include " ++ (pA ++ ' ' :: pB))
      = true := rfl
  have hincA : INCLUDE_INSTRUCTION.isPrefixOf (chars "//!include " ++ pA) = true := rfl
  have hincB : INCLUDE_INSTRUCTION.isPrefixOf (chars "//!include " ++ pB) = true := rfl
  constructor
  · have hrl : rustLines (joinLines [chars "//!include " ++ (pA ++ ' ' :: pB)])
        = [chars "//!include " ++ (pA ++ ' ' :: pB)] := by
      refine rustLines_joinLines _ ?_
      intro l hl
      simp only [List.mem_cons, List.not_mem_nil, or_false] at hl
      subst hl
      exact hplain1.2.2.1
    have hproc : processLines (fun q => load_shader_module fuel fs base q d)
        [chars "//!include " ++ (pA ++ ' ' :: pB)] ([], [])
        = .ok (ta ++ tb, []) := by
      simp only [processLines, hinc1, if_true, hsw2, processTokens, hlA, hlB]
      rfl
    cases d with
    | none =>
      simp only [load_shader_module, hC]
      rw [hrl, hproc]
      rfl
    | some ds =>
      have hparse : parse_defines (joinLines [chars "//!include " ++ (pA ++ ' ' :: pB)]) ds
          = some (joinLines [chars "//!include " ++ (pA ++ ' ' :: pB)]) := by
        unfold parse_defines
        rw [hrl]
        refine parseDefines_keepAll ds _ ?_
        intro l hl
        simp only [List.mem_cons, List.not_mem_nil, or_false] at hl
        subst hl
        exact hplain1
      simp only [load_shader_module, hC, hparse]
      rw [hrl, hproc]
      rfl
  · have hrl : rustLines (joinLines
        [chars "//!include " ++ pA, chars "//!include " ++ pB])
        = [chars "//!include " ++ pA, chars "//!include " ++ pB] := by
      refine rustLines_joinLines _ ?_
      intro l hl
      simp only [List.mem_cons, List.not_mem_nil, or_false] at hl
      rcases hl with rfl | rfl
      · exact hplainA.2.2.1
      · exact hplainB.2.2.1
    have hproc : processLines (fun q => load_shader_module fuel fs base q d)
        [chars "//!include " ++ pA, chars "//!include " ++ pB] ([], [])
        = .ok (ta ++ tb, []) := by
      simp only [processLines, hincA, hincB, if_true, hswA, hswB, processTokens, hlA, hlB]
      rfl
    cases d with
    | none =>
      simp only [load_shader_module, hC2]
      rw [hrl, hproc]
      rfl
    | some ds =>
      have hparse : parse_defines (joinLines
          [chars "//!include " ++ pA, chars "//!include " ++ pB]) ds
          = some (joinLines [chars "//!include " ++ pA, chars "//!include " ++ pB]) := by
        unfold parse_defines
        rw [hrl]
        refine parseDefines_keepAll ds _ ?_
        intro l hl
        simp only [List.mem_cons, List.not_mem_nil, or_false] at hl
        rcases hl with rfl | rfl
        · exact hplainA
        · exact hplainB
      simp only [load_shader_module, hC2, hparse]
      rw [hrl, hproc]
      rfl

/-- Witness for C3: definition-free modules `a.wgsl` (text `x`) and `b.wgsl`
(text `y`) included by `c.wgsl` on one line and by `c2.wgsl` on two lines. -/
theorem include_concatenation_witness :
    load_shader_module 2 fsC3w [] (chars "c.wgsl") none
      = .ok (chars "x\n" ++ chars "y\n", []) ∧
    load_shader_module 2 fsC3w [] (chars "c2.wgsl") none
      = .ok (chars "x\n" ++ chars "y\n", []) :=
  include_concatenation 1 fsC3w [] none (chars "a.wgsl") (chars "b.wgsl")
    (chars "c.wgsl") (chars "c2.wgsl") (chars "x\n") (chars "y\n")
    (by decide) (by decide) (by decide) (by decide) rfl rfl rfl rfl

/-- Counterexample for C3 as stated: module A defines macro `FOO -> bar` and
module B contains the token `FOO`; A and B define no conflicting macros, yet
including A then B yields `bar` — A's macro is applied to B's text — which is
not the concatenation of the two modules processed alone. -/
theorem include_concatenation_cex :
    load_shader_module 3 fsC3x [] (chars "c.wgsl") none
      = .ok (chars "bar\n", [(chars "FOO", chars "bar")]) ∧
    load_shader_module 2 fsC3x [] (chars "a.wgsl") none
      = .ok ([], [(chars "FOO", chars "bar")]) ∧
    load_shader_module 2 fsC3x [] (chars "b.wgsl") none
      = .ok (chars "FOO\n", []) ∧
    chars "bar\n" ≠ [] ++ chars "FOO\n" := by
  refine ⟨rfl, rfl, rfl, by decide⟩

/-! Claim C8. -/

/-- Claim C8 (amended): the base directory computed from the root module's
path is ignored — the result of `load_shader_module` is independent of the
`base_path` argument, and each `//!include` path token is used verbatim as the
next module path (resolved by the operating system against the process working
directory, not against the root or including module's directory): from
`dir/main.wgsl`, the token `inc.wgsl` loads the file literally named
`inc.wgsl`, not `dir/inc.wgsl`. -/
theorem include_token_used_verbatim :
    (∀ (fuel : Nat) (fs : LC → Option LC) (b1 b2 mp : LC) (d : Option (List LC)),
      load_shader_module fuel fs b1 mp d = load_shader_module fuel fs b2 mp d) ∧
    load_shader_module 2 fsC8 (chars "dir") (chars "dir/main.wgsl") none
      = .ok (chars "B\n", []) := by
  constructor
  · intro fuel
    induction fuel with
    | zero => intro fs b1 b2 mp d; rfl
    | succ n ih =>
      intro fs b1 b2 mp d
      cases hfs : fs mp with
      | none => simp only [load_shader_module, hfs]
      | some content =>
        simp only [load_shader_module, hfs]
        cases hp : (match d with
            | some ds => parse_defines content ds
            | none => some content) with
        | none => simp only [hp]
        | some ms =>
          simp only [hp]
          rw [processLines_congr _ _ (fun q => ih fs b1 b2 q d)]
  · rfl

/-- Counterexample for C8 as stated: with both `inc.wgsl` and `dir/inc.wgsl`
present, the include from `dir/main.wgsl` yields the contents of the verbatim
path `inc.wgsl` (`B`), not the contents of `dir/inc.wgsl` (`A`) that
resolution against either the root module's or the including module's
directory would produce. -/
theorem include_base_ignored_cex :
    load_shader_module 2 fsC8 (chars "dir") (chars "dir/main.wgsl") none
      = .ok (chars "B\n", []) ∧
    load_shader_module 2 fsC8 (chars "dir") (chars "dir/inc.wgsl") none
      = .ok (chars "A\n", []) ∧
    chars "B\n" ≠ chars "A\n" := by
  refine ⟨rfl, rfl, by decide⟩
